import Mathlib

/-!
# A shallow embedding of the Gaussian-mixture EM code

This file models the numeric core of `Customer_Review_Prediction.ipynb`
(`init` aside): the E-step (`estep`), the M-step (`mstep`), the convergence
loop (`run`) and the matrix-completion step (`fill_matrix`), and proves the
specification claims about them.

Conventions of the embedding:
* a rating matrix is a function `Fin n → Fin d → ℝ`; the value `0` is the
  missing-data sentinel, exactly as in the source;
* a `GaussianMixture` is the source's named tuple `(mu, var, p)`;
* NumPy reductions become `Finset` sums over `Fin`; `np.log`/`np.exp` become
  `Real.log`/`Real.exp`; `scipy.special.logsumexp f = log (∑ exp (f k))`
  (the max-subtraction inside scipy is only a floating-point stabilisation
  of that exact value, and the source's `f_max` is dead code);
* the source's `non_null = (X != 0).astype(int)` (E-step) and the `X2`
  array built in `mstep` by copying `X` and setting non-zero cells to `1`
  are the same indicator function, embedded once as `nonNull`;
* the `while True` loop of `run` is embedded with explicit fuel
  (`runLoop`), one unit of fuel per execution of the loop body, plus the
  unbounded iteration trace `mixAt`/`postAt`/`costAt`.
-/

namespace GMM

noncomputable section

open Finset

/-- The `1e-16` smoothing constant added inside `np.log(mixture.p + 1e-16)`. -/
def eps : ℝ := 1e-16

/-- The source's `GaussianMixture` named tuple: `mu` is `(K, d)`,
`var` and `p` are `(K,)`. -/
@[ext]
structure GaussianMixture (K d : ℕ) where
  mu : Fin K → Fin d → ℝ
  var : Fin K → ℝ
  p : Fin K → ℝ

variable {n d K : ℕ}

/-- `non_null = (X != 0).astype(int)` from `estep`; `mstep` rebuilds the same
array as `X2` (`X2 = np.copy(X); X2[X2 != 0] = 1`). -/
def nonNull (X : Fin n → Fin d → ℝ) (i : Fin n) (j : Fin d) : ℝ :=
  if X i j ≠ 0 then 1 else 0

/-- `rated = np.sum(non_null, axis=1)`: the number of observed entries of row `i`. -/
def rated (X : Fin n → Fin d → ℝ) (i : Fin n) : ℝ :=
  ∑ j, nonNull X i j

/-- `np.sum((X[:, None, :] - non_null[:, None, :] * m) ** 2, axis=2)`:
the squared distance of row `i` to the mask-adjusted mean row `m k`.
The mean is generalised to an arbitrary `(K, d)` array so that the same
definition serves `estep` (at `mixture.mu`) and the M-step analysis. -/
def sqdist (X : Fin n → Fin d → ℝ) (m : Fin K → Fin d → ℝ) (i : Fin n) (k : Fin K) : ℝ :=
  ∑ j, (X i j - nonNull X i j * m k j) ^ 2

/-- The unnormalised log-responsibility `f` built in `estep`:
`f = -norm / (var * 2) - (rated / 2.0) * (log(2 pi) + log(var)) + log(p + 1e-16)`. -/
def f (X : Fin n → Fin d → ℝ) (mix : GaussianMixture K d) (i : Fin n) (k : Fin K) : ℝ :=
  -(sqdist X mix.mu i k) / (mix.var k * 2)
    - (rated X i / 2) * (Real.log (2 * Real.pi) + Real.log (mix.var k))
    + Real.log (mix.p k + eps)

/-- `logsumexp(f, axis=1)`: the exact value computed by scipy's stable reduction. -/
def lse (X : Fin n → Fin d → ℝ) (mix : GaussianMixture K d) (i : Fin n) : ℝ :=
  Real.log (∑ k, Real.exp (f X mix i k))

/-- `log_post = f - logsumexp(f, axis=1, keepdims=True)`. -/
def logPost (X : Fin n → Fin d → ℝ) (mix : GaussianMixture K d) (i : Fin n) (k : Fin K) : ℝ :=
  f X mix i k - lse X mix i

/-- `post = np.exp(log_post)`: the responsibility matrix returned by `estep`. -/
def post (X : Fin n → Fin d → ℝ) (mix : GaussianMixture K d) : Fin n → Fin K → ℝ :=
  fun i k => Real.exp (logPost X mix i k)

/-- `log_likelihood = np.sum(post * (f - log_post))`: the scalar returned by `estep`. -/
def logLikelihood (X : Fin n → Fin d → ℝ) (mix : GaussianMixture K d) : ℝ :=
  ∑ i, ∑ k, post X mix i k * (f X mix i k - logPost X mix i k)

/-- `estep(X, mixture) -> (post, log_likelihood)`. -/
def estep (X : Fin n → Fin d → ℝ) (mix : GaussianMixture K d) :
    (Fin n → Fin K → ℝ) × ℝ :=
  (post X mix, logLikelihood X mix)

/-- The M-step mean denominator
`np.multiply(X2[:, j].T, np.matrix(post[:, k])).T.sum(axis=0) = ∑ i, X2[i,j] * post[i,k]`. -/
def muDen (X : Fin n → Fin d → ℝ) (pst : Fin n → Fin K → ℝ) (k : Fin K) (j : Fin d) : ℝ :=
  ∑ i, nonNull X i j * pst i k

/-- The M-step mean numerator `∑ i, X[i,j] * post[i,k]`. -/
def muNum (X : Fin n → Fin d → ℝ) (pst : Fin n → Fin K → ℝ) (k : Fin K) (j : Fin d) : ℝ :=
  ∑ i, X i j * pst i k

/-- The M-step mean update `mu_h` with its per-dimension fallback: the
weighted average when the observed mass is at least `1`, the previous mean
otherwise. -/
def muHat (X : Fin n → Fin d → ℝ) (pst : Fin n → Fin K → ℝ) (mix : GaussianMixture K d)
    (k : Fin K) (j : Fin d) : ℝ :=
  if 1 ≤ muDen X pst k j then muNum X pst k j / muDen X pst k j else mix.mu k j

/-- `p = post.sum(axis=0) / post.shape[0]`. -/
def pHat (pst : Fin n → Fin K → ℝ) (k : Fin K) : ℝ :=
  (∑ i, pst i k) / n

/-- The raw variance estimate `pv` of `mstep`:
`(post[:, k] * np.power((X - mu_h[k]) * X2, 2).sum(axis=1)).sum(axis=0)`
over `((np.matrix(post[:, k]) * X2).sum(axis=1)).sum(axis=0)`. -/
def pvRaw (X : Fin n → Fin d → ℝ) (pst : Fin n → Fin K → ℝ) (mix : GaussianMixture K d)
    (k : Fin K) : ℝ :=
  (∑ i, pst i k * ∑ j, ((X i j - muHat X pst mix k j) * nonNull X i j) ^ 2) /
    (∑ j, ∑ i, pst i k * nonNull X i j)

/-- `var_h[k] = pv if pv >= min_variance else min_variance`. -/
def varHat (X : Fin n → Fin d → ℝ) (pst : Fin n → Fin K → ℝ) (mix : GaussianMixture K d)
    (minVar : ℝ) (k : Fin K) : ℝ :=
  if minVar ≤ pvRaw X pst mix k then pvRaw X pst mix k else minVar

/-- `mstep(X, post, mixture, min_variance=.25) -> GaussianMixture(mu_h, var_h, p)`. -/
def mstep (X : Fin n → Fin d → ℝ) (pst : Fin n → Fin K → ℝ) (mix : GaussianMixture K d)
    (minVar : ℝ) : GaussianMixture K d :=
  ⟨muHat X pst mix, varHat X pst mix minVar, pHat pst⟩

/-- `fill_matrix(X, mixture)`: start from a copy of `X` and overwrite every
zero (missing) cell with `∑ k, post[i,k] * mu[k,j]`, where the
responsibilities are recomputed inside `fill_matrix` by lines identical to
the ones in `estep` (hence `post` is reused here). -/
def fillMatrix (X : Fin n → Fin d → ℝ) (mix : GaussianMixture K d) :
    Fin n → Fin d → ℝ :=
  fun i j => if X i j = 0 then ∑ k, post X mix i k * mix.mu k j else X i j

/-- The mixture held by `run` at the start of loop iteration `t` (`mixAt 0`
is the externally supplied mixture; each iteration replaces it with the
M-step output, `min_variance` left at its `.25` default). -/
def mixAt (X : Fin n → Fin d → ℝ) (mix0 : GaussianMixture K d) : ℕ → GaussianMixture K d
  | 0 => mix0
  | t + 1 => mstep X (post X (mixAt X mix0 t)) (mixAt X mix0 t) 0.25

/-- The responsibility matrix computed by the E-step of loop iteration `t`. -/
def postAt (X : Fin n → Fin d → ℝ) (mix0 : GaussianMixture K d) (t : ℕ) :
    Fin n → Fin K → ℝ :=
  post X (mixAt X mix0 t)

/-- The `cost` computed by the E-step of loop iteration `t`. -/
def costAt (X : Fin n → Fin d → ℝ) (mix0 : GaussianMixture K d) (t : ℕ) : ℝ :=
  logLikelihood X (mixAt X mix0 t)

/-- The convergence test evaluated at the end of loop iteration `t ≥ 1`:
`cost - prev_cost <= 1e-6 * np.abs(cost)`. -/
def stopsAt (X : Fin n → Fin d → ℝ) (mix0 : GaussianMixture K d) (t : ℕ) : Prop :=
  costAt X mix0 t - costAt X mix0 (t - 1) ≤ 1e-6 * |costAt X mix0 t|

/-- The body of `run`'s `while True` loop, with explicit fuel (first
argument of the recursion): one unit of fuel per loop-body execution.
Arguments after the fuel: the current `mixture`, the counter `i`, and the
`prev_cost` value (read only when `i > 0`, matching the guarded global). -/
def runLoop (X : Fin n → Fin d → ℝ) :
    ℕ → GaussianMixture K d → ℕ → ℝ →
      Option (GaussianMixture K d × (Fin n → Fin K → ℝ) × ℝ)
  | 0, _, _, _ => none
  | fuel + 1, mix, i, prevCost =>
    if 0 < i ∧ logLikelihood X mix - prevCost ≤ 1e-6 * |logLikelihood X mix| then
      some (mstep X (post X mix) mix 0.25, post X mix, logLikelihood X mix)
    else
      runLoop X fuel (mstep X (post X mix) mix 0.25) (i + 1) (logLikelihood X mix)

/-- `run(X, mixture, post)`: the loop started with `i = 0`; the `post`
argument is immediately overwritten by the first E-step, exactly as in the
source, and the initial `prev_cost` content is never read because the test
is guarded by `i > 0`. -/
def run (X : Fin n → Fin d → ℝ) (mix0 : GaussianMixture K d)
    (pst0 : Fin n → Fin K → ℝ) (fuel : ℕ) :
    Option (GaussianMixture K d × (Fin n → Fin K → ℝ) × ℝ) :=
  runLoop X fuel mix0 0 0

/-! ## Expected sufficient statistics

`Aw`, `Bw`, `Cw` name the per-component reductions of the M-step (expected
masked squared distance, expected observed count, expected count); they are
the quantities the EM improvement argument is phrased in. -/

/-- `∑ i, q[i,k] * sqdist(i, k)` for a mean array `m`. -/
def Aw (X : Fin n → Fin d → ℝ) (q : Fin n → Fin K → ℝ) (m : Fin K → Fin d → ℝ)
    (k : Fin K) : ℝ :=
  ∑ i, q i k * sqdist X m i k

/-- `∑ i, q[i,k] * rated[i]`: the expected number of observed entries in
component `k`. -/
def Bw (X : Fin n → Fin d → ℝ) (q : Fin n → Fin K → ℝ) (k : Fin K) : ℝ :=
  ∑ i, q i k * rated X i

/-- `∑ i, q[i,k]`: the column sum of the responsibility matrix. -/
def Cw (q : Fin n → Fin K → ℝ) (k : Fin K) : ℝ :=
  ∑ i, q i k

/-! ## Spec-side definitions

`distSpec`, `ratedSpec` and `fSpec` transcribe the specification's wording
of the E-step formula (squared distance restricted to the observed
dimensions of the row, `r_i` the count of observed dimensions), to be
compared with the code-side `f`. -/

/-- Modelled from the spec: the squared Euclidean distance "computed only
over dimensions observed in row i". -/
def distSpec (X : Fin n → Fin d → ℝ) (mix : GaussianMixture K d) (i : Fin n) (k : Fin K) : ℝ :=
  ∑ j ∈ Finset.univ.filter (fun j => X i j ≠ 0), (X i j - mix.mu k j) ^ 2

/-- Modelled from the spec: `r_i`, the number of observed dimensions of row `i`. -/
def ratedSpec (X : Fin n → Fin d → ℝ) (i : Fin n) : ℕ :=
  (Finset.univ.filter (fun j => X i j ≠ 0)).card

/-- Modelled from the spec:
`f(i,k) = -dist(i,k) / (2 var[k]) - (r_i/2)(log(2π) + log(var[k])) + log(p[k] + 1e-16)`. -/
def fSpec (X : Fin n → Fin d → ℝ) (mix : GaussianMixture K d) (i : Fin n) (k : Fin K) : ℝ :=
  -(distSpec X mix i k) / (2 * mix.var k)
    - ((ratedSpec X i : ℝ) / 2) * (Real.log (2 * Real.pi) + Real.log (mix.var k))
    + Real.log (mix.p k + 1e-16)

/-! ## Concrete inputs used by witnesses and counterexamples -/

/-- A one-user, one-item rating matrix with the single rating `1`. -/
def X1 : Fin 1 → Fin 1 → ℝ := fun _ _ => 1

/-- A one-user, one-item rating matrix whose only cell is missing. -/
def X0w : Fin 1 → Fin 1 → ℝ := fun _ _ => 0

/-- A one-user, two-item matrix: item 0 rated `2`, item 1 missing. -/
def X6 : Fin 1 → Fin 2 → ℝ := ![![2, 0]]

/-- The fixed point of EM on `X1`: mean at the data point, variance at the
`0.25` floor, full weight on the single component. -/
def mixStar : GaussianMixture 1 1 := ⟨fun _ _ => 1, fun _ => 0.25, fun _ => 1⟩

/-- A start state for `run` on `X1` whose variance `0.01` lies below the
M-step's `0.25` variance floor. -/
def mixA : GaussianMixture 1 1 := ⟨fun _ _ => 1, fun _ => 0.01, fun _ => 1⟩

/-- A single-component mixture over two items with means away from the data. -/
def mix6 : GaussianMixture 1 2 := ⟨fun _ _ => 5, fun _ => 1, fun _ => 1⟩

/-- A one-row, one-component responsibility matrix. -/
def pst6 : Fin 1 → Fin 1 → ℝ := fun _ _ => 1

end

/-! ## Helper lemmas -/

section Helpers

variable {n d K : ℕ}

lemma eps_pos : (0 : ℝ) < eps := by norm_num [eps]

lemma nonNull_of_ne {X : Fin n → Fin d → ℝ} {i j} (h : X i j ≠ 0) : nonNull X i j = 1 := by
  simp [nonNull, h]

lemma nonNull_of_eq {X : Fin n → Fin d → ℝ} {i j} (h : X i j = 0) : nonNull X i j = 0 := by
  simp [nonNull, h]

lemma nonNull_nonneg (X : Fin n → Fin d → ℝ) (i j) : 0 ≤ nonNull X i j := by
  unfold nonNull; split <;> norm_num

/-- `X = X * non_null` pointwise: missing cells hold the zero sentinel. -/
lemma mul_nonNull (X : Fin n → Fin d → ℝ) (i j) : X i j * nonNull X i j = X i j := by
  unfold nonNull
  split
  · exact mul_one _
  · next h => rw [not_not.mp h, zero_mul]

/-- Pointwise masking identity: `(X - non_null * m)^2 = non_null * (X - m)^2`. -/
lemma sq_masked (X : Fin n → Fin d → ℝ) (i j) (m : ℝ) :
    (X i j - nonNull X i j * m) ^ 2 = nonNull X i j * (X i j - m) ^ 2 := by
  unfold nonNull
  split
  · next h => ring
  · next h => rw [not_not.mp h]; ring

lemma rated_nonneg (X : Fin n → Fin d → ℝ) (i) : 0 ≤ rated X i :=
  Finset.sum_nonneg fun j _ => nonNull_nonneg X i j

lemma sum_exp_f_pos (X : Fin n → Fin d → ℝ) (mix : GaussianMixture K d) (hK : 0 < K) (i) :
    0 < ∑ k, Real.exp (f X mix i k) := by
  have : Nonempty (Fin K) := ⟨⟨0, hK⟩⟩
  exact Finset.sum_pos (fun k _ => Real.exp_pos _) Finset.univ_nonempty

lemma post_nonneg (X : Fin n → Fin d → ℝ) (mix : GaussianMixture K d) (i k) :
    0 ≤ post X mix i k :=
  (Real.exp_pos _).le

lemma post_le_one (X : Fin n → Fin d → ℝ) (mix : GaussianMixture K d) (i k) :
    post X mix i k ≤ 1 := by
  unfold post logPost
  rw [show (1 : ℝ) = Real.exp 0 from (Real.exp_zero).symm]
  apply Real.exp_le_exp.mpr
  rw [sub_nonpos]
  unfold lse
  calc f X mix i k = Real.log (Real.exp (f X mix i k)) := (Real.log_exp _).symm
    _ ≤ Real.log (∑ k2, Real.exp (f X mix i k2)) :=
        Real.log_le_log (Real.exp_pos _)
          (Finset.single_le_sum (fun k2 _ => (Real.exp_pos (f X mix i k2)).le)
            (Finset.mem_univ k))

lemma post_row_sum (X : Fin n → Fin d → ℝ) (mix : GaussianMixture K d) (hK : 0 < K) (i) :
    ∑ k, post X mix i k = 1 := by
  have hS := sum_exp_f_pos X mix hK i
  unfold post logPost lse
  simp only [Real.exp_sub]
  rw [← Finset.sum_div, Real.exp_log hS, div_self hS.ne']

lemma loglik_eq_sum_lse (X : Fin n → Fin d → ℝ) (mix : GaussianMixture K d) (hK : 0 < K) :
    logLikelihood X mix = ∑ i, lse X mix i := by
  unfold logLikelihood
  refine Finset.sum_congr rfl fun i _ => ?_
  have h1 : ∀ k : Fin K, f X mix i k - logPost X mix i k = lse X mix i := fun k => by
    unfold logPost; ring
  calc ∑ k, post X mix i k * (f X mix i k - logPost X mix i k)
      = ∑ k, post X mix i k * lse X mix i :=
        Finset.sum_congr rfl fun k _ => by rw [h1]
    _ = (∑ k, post X mix i k) * lse X mix i := (Finset.sum_mul _ _ _).symm
    _ = lse X mix i := by rw [post_row_sum X mix hK i, one_mul]

/-- With a single component the softmax is identically `1`, whatever the
mixture parameters. -/
lemma post_one_component (X : Fin n → Fin d → ℝ) (mix : GaussianMixture 1 d) :
    post X mix = fun _ _ => 1 := by
  funext i k
  have hk : k = 0 := Subsingleton.elim k 0
  subst hk
  unfold post logPost lse
  rw [Fin.sum_univ_one, Real.log_exp, sub_self, Real.exp_zero]

lemma nonNull_X1 (i j : Fin 1) : nonNull X1 i j = 1 :=
  nonNull_of_ne (by norm_num [X1])

/-- On `X1` the M-step lands on `mixStar` from any one-component start:
the mean denominator is exactly `1` (so the weighted average `1/1` is
taken), the raw variance estimate is `0`, floored to `0.25`, and the
mixing weight is `1`. -/
lemma mstep_X1 (mix : GaussianMixture 1 1) :
    mstep X1 (post X1 mix) mix 0.25 = mixStar := by
  rw [post_one_component X1 mix]
  have hden : ∀ (k j : Fin 1), muDen X1 (fun _ _ => (1 : ℝ)) k j = 1 := by
    intro k j
    unfold muDen
    rw [Fin.sum_univ_one, nonNull_X1, one_mul]
  have hnum : ∀ (k j : Fin 1), muNum X1 (fun _ _ => (1 : ℝ)) k j = 1 := by
    intro k j
    unfold muNum
    rw [Fin.sum_univ_one, mul_one]
    norm_num [X1]
  have hmu : ∀ (k j : Fin 1), muHat X1 (fun _ _ => (1 : ℝ)) mix k j = 1 := by
    intro k j
    unfold muHat
    rw [hden, hnum, if_pos (le_refl (1 : ℝ)), div_one]
  refine GaussianMixture.ext ?_ ?_ ?_
  · funext k j
    rw [show (mstep X1 (fun _ _ => (1 : ℝ)) mix 0.25).mu k j =
        muHat X1 (fun _ _ => (1 : ℝ)) mix k j from rfl, hmu]
    rfl
  · funext k
    show varHat X1 (fun _ _ => (1 : ℝ)) mix 0.25 k = 0.25
    have hpv : pvRaw X1 (fun _ _ => (1 : ℝ)) mix k = 0 := by
      unfold pvRaw
      rw [Fin.sum_univ_one, Fin.sum_univ_one, hmu]
      rw [show X1 0 0 - 1 = 0 by norm_num [X1]]
      norm_num
    unfold varHat
    rw [hpv, if_neg (by norm_num)]
  · funext k
    show pHat (fun _ _ => (1 : ℝ)) k = 1
    unfold pHat
    rw [Fin.sum_univ_one]
    norm_num

/-- The E-step log-likelihood on `X1` for a one-component mixture whose
mean sits on the data point. -/
lemma loglik_X1 (mix : GaussianMixture 1 1) (hmu : mix.mu 0 0 = 1) :
    logLikelihood X1 mix =
      -(1 / 2) * (Real.log (2 * Real.pi) + Real.log (mix.var 0)) +
        Real.log (mix.p 0 + eps) := by
  have hlse : lse X1 mix 0 = f X1 mix 0 0 := by
    unfold lse
    rw [Fin.sum_univ_one, Real.log_exp]
  have hf : f X1 mix 0 0 =
      -(1 / 2) * (Real.log (2 * Real.pi) + Real.log (mix.var 0)) +
        Real.log (mix.p 0 + eps) := by
    unfold f sqdist rated
    rw [Fin.sum_univ_one, Fin.sum_univ_one, nonNull_X1, hmu]
    norm_num [X1]
  unfold logLikelihood post logPost
  rw [Fin.sum_univ_one, Fin.sum_univ_one, hlse, sub_self, Real.exp_zero, one_mul,
    sub_zero, hf]

/-- A mixture that the M-step maps to itself makes `run` stop at the first
evaluated convergence check (end of the second loop-body execution),
returning that same mixture with the E-step's post and cost. -/
lemma run_fixed (X : Fin n → Fin d → ℝ) (mix : GaussianMixture K d)
    (pst0 : Fin n → Fin K → ℝ)
    (hfix : mstep X (post X mix) mix 0.25 = mix) :
    run X mix pst0 2 = some (mix, post X mix, logLikelihood X mix) := by
  unfold run
  rw [runLoop, if_neg (by simp), hfix, runLoop, if_pos, hfix]
  refine ⟨Nat.zero_lt_one, ?_⟩
  rw [sub_self]
  positivity

/-- Relates a successful `runLoop` call entered at loop index `t ≥ 1` (with
mixture `mixAt t` and previous cost `costAt (t-1)`) to the iteration trace:
the returned triple belongs to the first index `s ≥ t` whose convergence
check passes, and it is that iteration's M-step mixture together with its
E-step post and cost. -/
lemma runLoop_some_spec (X : Fin n → Fin d → ℝ) (mix0 : GaussianMixture K d) :
    ∀ (fuel t : ℕ) (out : GaussianMixture K d × (Fin n → Fin K → ℝ) × ℝ),
      1 ≤ t →
      runLoop X fuel (mixAt X mix0 t) t (costAt X mix0 (t - 1)) = some out →
      ∃ s, t ≤ s ∧ (∀ u, t ≤ u → u < s → ¬ stopsAt X mix0 u) ∧ stopsAt X mix0 s ∧
        out = (mixAt X mix0 (s + 1), postAt X mix0 s, costAt X mix0 s) := by
  intro fuel
  induction fuel with
  | zero =>
    intro t out ht h
    simp [runLoop] at h
  | succ fuel ih =>
    intro t out ht h
    rw [runLoop] at h
    by_cases hstop : stopsAt X mix0 t
    · rw [if_pos ⟨ht, hstop⟩] at h
      refine ⟨t, le_refl t, fun u hu hut => absurd (lt_of_le_of_lt hu hut) (lt_irrefl t),
        hstop, (Option.some.inj h).symm⟩
    · have hcond : ¬(0 < t ∧ logLikelihood X (mixAt X mix0 t) - costAt X mix0 (t - 1) ≤
          1e-6 * |logLikelihood X (mixAt X mix0 t)|) := fun hc => hstop hc.2
      rw [if_neg hcond] at h
      have h2 : runLoop X fuel (mixAt X mix0 (t + 1)) (t + 1)
          (costAt X mix0 (t + 1 - 1)) = some out := h
      obtain ⟨s, hs1, hs2, hs3, hs4⟩ := ih (t + 1) out (Nat.le_add_left 1 t) h2
      refine ⟨s, le_trans (Nat.le_succ t) hs1, fun u hu hus => ?_, hs3, hs4⟩
      rcases eq_or_lt_of_le hu with hequ | hlt
      · rw [← hequ]; exact hstop
      · exact hs2 u hlt hus

/-! ### Scalar inequalities for the EM improvement argument -/

/-- Gibbs' inequality in ratio form: for positive vectors of equal total
mass, `∑ s * log (t / s) ≤ 0`. -/
lemma gibbs_nonpos (s t : Fin K → ℝ) (hs : ∀ k, 0 < s k) (ht : ∀ k, 0 < t k)
    (hsum : ∑ k, t k = ∑ k, s k) :
    ∑ k, s k * Real.log (t k / s k) ≤ 0 := by
  have h1 : ∀ k ∈ Finset.univ, s k * Real.log (t k / s k) ≤ t k - s k := by
    intro k _
    have hlog := Real.log_le_sub_one_of_pos (div_pos (ht k) (hs k))
    calc s k * Real.log (t k / s k) ≤ s k * (t k / s k - 1) :=
          mul_le_mul_of_nonneg_left hlog (hs k).le
      _ = t k - s k := by
          field_simp [(hs k).ne']
  calc ∑ k, s k * Real.log (t k / s k) ≤ ∑ k, (t k - s k) := Finset.sum_le_sum h1
    _ = 0 := by rw [Finset.sum_sub_distrib, hsum, sub_self]

/-- The evidence lower bound: for a probability vector `q`,
`∑ q * (g - log q) ≤ log ∑ exp g` (equality exactly at the softmax). -/
lemma elbo_le_lse (hK : 0 < K) (q g : Fin K → ℝ) (hq0 : ∀ k, 0 ≤ q k)
    (hq1 : ∑ k, q k = 1) :
    ∑ k, q k * (g k - Real.log (q k)) ≤ Real.log (∑ k, Real.exp (g k)) := by
  have hne : Nonempty (Fin K) := ⟨⟨0, hK⟩⟩
  have hSpos : 0 < ∑ k, Real.exp (g k) :=
    Finset.sum_pos (fun k _ => Real.exp_pos _) Finset.univ_nonempty
  set L := Real.log (∑ k, Real.exp (g k)) with hL
  have key : ∀ k ∈ Finset.univ,
      q k * (g k - Real.log (q k)) ≤ Real.exp (g k - L) - q k + q k * L := by
    intro k _
    rcases eq_or_lt_of_le (hq0 k) with h0 | hpos
    · rw [← h0]
      have := (Real.exp_pos (g k - L)).le
      simpa using this
    · have hlog : Real.log (Real.exp (g k - L) / q k) ≤ Real.exp (g k - L) / q k - 1 :=
        Real.log_le_sub_one_of_pos (div_pos (Real.exp_pos _) hpos)
      have hlogeq : Real.log (Real.exp (g k - L) / q k) = g k - L - Real.log (q k) := by
        rw [Real.log_div (Real.exp_ne_zero _) hpos.ne', Real.log_exp]
      rw [hlogeq] at hlog
      have hm := mul_le_mul_of_nonneg_left hlog hpos.le
      have heq : q k * (Real.exp (g k - L) / q k - 1) = Real.exp (g k - L) - q k := by
        field_simp
    --  from q*(g − L − log q) ≤ exp(g−L) − q, conclude by adding q*L
      nlinarith [hm, heq]
  calc ∑ k, q k * (g k - Real.log (q k))
      ≤ ∑ k, (Real.exp (g k - L) - q k + q k * L) := Finset.sum_le_sum key
    _ = (∑ k, Real.exp (g k - L)) - (∑ k, q k) + (∑ k, q k) * L := by
        rw [Finset.sum_add_distrib, Finset.sum_sub_distrib, ← Finset.sum_mul]
    _ = L := by
        have hexp : ∑ k, Real.exp (g k - L) = 1 := by
          simp only [Real.exp_sub]
          rw [← Finset.sum_div, hL, Real.exp_log hSpos, div_self hSpos.ne']
        rw [hexp, hq1, one_mul]
        ring

/-- Weighted least squares: among all centres `m`, the weighted mean
minimizes the weighted sum of squared deviations. -/
lemma wls_le (w x : Fin n → ℝ) (hw : ∀ i, 0 ≤ w i) (hden : (∑ i, w i) ≠ 0) (m : ℝ) :
    ∑ i, w i * (x i - (∑ i, w i * x i) / (∑ i, w i)) ^ 2 ≤ ∑ i, w i * (x i - m) ^ 2 := by
  set W := ∑ i, w i with hW
  set S := ∑ i, w i * x i with hS
  have hWpos : 0 < W :=
    lt_of_le_of_ne (Finset.sum_nonneg fun i _ => hw i) (Ne.symm hden)
  have expand : ∀ c : ℝ,
      ∑ i, w i * (x i - c) ^ 2 = (∑ i, w i * x i ^ 2) - 2 * c * S + c ^ 2 * W := by
    intro c
    have h1 : ∀ i ∈ Finset.univ,
        w i * (x i - c) ^ 2 = w i * x i ^ 2 - 2 * c * (w i * x i) + c ^ 2 * w i :=
      fun i _ => by ring
    rw [Finset.sum_congr rfl h1, Finset.sum_add_distrib, Finset.sum_sub_distrib,
      ← Finset.mul_sum, ← Finset.mul_sum, ← hS, ← hW]
  have key : (∑ i, w i * (x i - m) ^ 2) - (∑ i, w i * (x i - S / W) ^ 2) =
      W * (m - S / W) ^ 2 := by
    rw [expand, expand]
    field_simp
    ring
  nlinarith [key, mul_nonneg hWpos.le (sq_nonneg (m - S / W))]

/-- The variance step of `mstep` does not decrease the var-dependent part
of the expected complete log-likelihood, provided the previous variance
already satisfied the floor. `A` is the expected masked squared distance,
`B` the expected observed count (with `B = 0` forcing `A = 0`), and the
update is `A/B` clipped from below at the floor `mv`. -/
lemma varStep_le (A B v mv : ℝ) (hA : 0 ≤ A) (hB : 0 ≤ B) (hmv : 0 < mv)
    (hv : mv ≤ v) (hB0 : B = 0 → A = 0) :
    -A / (2 * v) - B / 2 * Real.log v ≤
      -A / (2 * (if mv ≤ A / B then A / B else mv)) -
        B / 2 * Real.log (if mv ≤ A / B then A / B else mv) := by
  have hvpos : 0 < v := lt_of_lt_of_le hmv hv
  split
  · next h =>
    have hBne : B ≠ 0 := by
      intro hB'
      rw [hB', div_zero] at h
      exact absurd (lt_of_lt_of_le hmv h) (lt_irrefl 0)
    have hBpos : 0 < B := lt_of_le_of_ne hB (Ne.symm hBne)
    have hpvpos : 0 < A / B := lt_of_lt_of_le hmv h
    have hApv : A = B * (A / B) := by field_simp
    have hApos : 0 < A := by
      have := mul_pos hBpos hpvpos
      rwa [← hApv] at this
    have hlog : Real.log (A / B / v) ≤ A / B / v - 1 :=
      Real.log_le_sub_one_of_pos (div_pos hpvpos hvpos)
    have hlogd : Real.log (A / B / v) = Real.log (A / B) - Real.log v :=
      Real.log_div hpvpos.ne' hvpos.ne'
    have h3 : Real.log (A / B) - Real.log v ≤ A / B / v - 1 := by
      rw [← hlogd]; exact hlog
    have h4 : B / 2 * (Real.log (A / B) - Real.log v) ≤ B / 2 * (A / B / v - 1) :=
      mul_le_mul_of_nonneg_left h3 (by positivity)
    have e1 : -A / (2 * (A / B)) = -(B / 2) := by
      field_simp [hApos.ne']
      ring
    have e2 : -A / (2 * v) = -(B / 2) * (A / B / v) := by
      rw [hApv]; field_simp; ring
    rw [e1, e2]
    nlinarith [h4]
  · next h =>
    rcases eq_or_lt_of_le hB with hB0' | hBpos
    · have hA0 : A = 0 := hB0 hB0'.symm
      rw [hA0, ← hB0']
      simp
    · have hpvlt : A / B < mv := not_le.mp h
      have hpvnn : 0 ≤ A / B := div_nonneg hA hB
      have hApv : A = B * (A / B) := by field_simp
      have hlog : Real.log (mv / v) ≤ mv / v - 1 :=
        Real.log_le_sub_one_of_pos (div_pos hmv hvpos)
      have hlogd : Real.log (mv / v) = Real.log mv - Real.log v :=
        Real.log_div hmv.ne' hvpos.ne'
      have key : 0 ≤ A / B / v - A / B / mv + Real.log v - Real.log mv := by
        have h5 : 1 - mv / v ≤ Real.log v - Real.log mv := by linarith [hlog, hlogd]
        have h6 : A / B / v - A / B / mv = (A / B / mv) * (mv / v - 1) := by
          field_simp
          ring
        have h7 : A / B / mv ≤ 1 := (div_le_one hmv).mpr hpvlt.le
        have h8 : mv / v - 1 ≤ 0 := by
          have : mv / v ≤ 1 := (div_le_one hvpos).mpr hv
          linarith
        have h9 : 1 * (mv / v - 1) ≤ (A / B / mv) * (mv / v - 1) :=
          mul_le_mul_of_nonpos_right h7 h8
        nlinarith [h9, h6, h5]
      have e1 : -A / (2 * v) = -(B / 2) * (A / B / v) := by
        rw [hApv]; field_simp; ring
      have e2 : -A / (2 * mv) = -(B / 2) * (A / B / mv) := by
        rw [hApv]; field_simp; ring
      rw [e1, e2]
      have h10 : 0 ≤ B / 2 * (A / B / v - A / B / mv + Real.log v - Real.log mv) :=
        mul_nonneg (by positivity) key
      nlinarith [h10]

/-- The weight step of `mstep` decreases the weight-dependent part of the
expected complete log-likelihood by at most `n·K·ε·log((1+ε)/ε)`: the exact
maximiser of `∑ c * log (p + ε)` differs from the code's `p = c / n` only
because of the `ε` inside the logarithm. -/
lemma deltaP_ge (hn : 0 < n) (c p : Fin K → ℝ) (hc0 : ∀ k, 0 ≤ c k)
    (hcn : ∀ k, c k ≤ n) (hcs : ∑ k, c k = n) (hp0 : ∀ k, 0 ≤ p k)
    (hps : ∑ k, p k = 1) :
    -(n * K * eps * Real.log ((1 + eps) / eps)) ≤
      ∑ k, c k * (Real.log (c k / n + eps) - Real.log (p k + eps)) := by
  have hnpos : (0 : ℝ) < n := Nat.cast_pos.mpr hn
  set s' : Fin K → ℝ := fun k => c k / n + eps with hs'
  set s : Fin K → ℝ := fun k => p k + eps with hsdef
  have hs'pos : ∀ k, 0 < s' k := fun k =>
    add_pos_of_nonneg_of_pos (div_nonneg (hc0 k) hnpos.le) eps_pos
  have hspos : ∀ k, 0 < s k := fun k => add_pos_of_nonneg_of_pos (hp0 k) eps_pos
  have hsum_s' : ∑ k, s' k = 1 + K * eps := by
    simp only [hs']
    rw [Finset.sum_add_distrib, ← Finset.sum_div, hcs, div_self hnpos.ne',
      Finset.sum_const, Finset.card_univ, Fintype.card_fin, nsmul_eq_mul]
  have hsum_s : ∑ k, s k = 1 + K * eps := by
    simp only [hsdef]
    rw [Finset.sum_add_distrib, hps, Finset.sum_const, Finset.card_univ,
      Fintype.card_fin, nsmul_eq_mul]
  have hT1 : 0 ≤ ∑ k, s' k * Real.log (s' k / s k) := by
    have hg := gibbs_nonpos s' s hs'pos hspos (by rw [hsum_s, hsum_s'])
    have heach : ∀ k ∈ Finset.univ,
        s' k * Real.log (s' k / s k) = -(s' k * Real.log (s k / s' k)) := by
      intro k _
      rw [show s' k / s k = (s k / s' k)⁻¹ by
            rw [inv_div], Real.log_inv, mul_neg]
    rw [Finset.sum_congr rfl heach, Finset.sum_neg_distrib]
    linarith
  have hT2 : ∑ k, Real.log (s' k / s k) ≤ K * Real.log ((1 + eps) / eps) := by
    have hb : ∀ k ∈ Finset.univ,
        Real.log (s' k / s k) ≤ Real.log ((1 + eps) / eps) := by
      intro k _
      apply Real.log_le_log (div_pos (hs'pos k) (hspos k))
      apply div_le_div₀ (by linarith [eps_pos] : (0 : ℝ) ≤ 1 + eps) ?_ eps_pos ?_
      · have : c k / n ≤ 1 := (div_le_one hnpos).mpr (hcn k)
        simp only [hs']
        linarith
      · simp only [hsdef]
        linarith [hp0 k]
    calc ∑ k, Real.log (s' k / s k) ≤ ∑ _k : Fin K, Real.log ((1 + eps) / eps) :=
          Finset.sum_le_sum hb
      _ = K * Real.log ((1 + eps) / eps) := by
          rw [Finset.sum_const, Finset.card_univ, Fintype.card_fin, nsmul_eq_mul]
  have hck : ∀ k, c k = n * (s' k - eps) := by
    intro k
    simp only [hs']
    field_simp
    ring
  have hΔ : ∑ k, c k * (Real.log (c k / n + eps) - Real.log (p k + eps)) =
      (n : ℝ) * (∑ k, s' k * Real.log (s' k / s k)) -
        n * eps * (∑ k, Real.log (s' k / s k)) := by
    rw [Finset.mul_sum, Finset.mul_sum, ← Finset.sum_sub_distrib]
    refine Finset.sum_congr rfl fun k _ => ?_
    have hld : Real.log (c k / n + eps) - Real.log (p k + eps) =
        Real.log (s' k / s k) := by
      rw [Real.log_div (hs'pos k).ne' (hspos k).ne']
    rw [hld, hck k]
    ring
  rw [hΔ]
  have h1 : 0 ≤ (n : ℝ) * (∑ k, s' k * Real.log (s' k / s k)) :=
    mul_nonneg hnpos.le hT1
  have h2 : (n : ℝ) * eps * (∑ k, Real.log (s' k / s k)) ≤
      n * eps * (K * Real.log ((1 + eps) / eps)) :=
    mul_le_mul_of_nonneg_left hT2 (mul_nonneg hnpos.le eps_pos.le)
  nlinarith [h1, h2]

/-! ### Bridging lemmas between `mstep`'s reductions and `Aw`/`Bw`/`Cw` -/

lemma sqdist_nonneg (X : Fin n → Fin d → ℝ) (m : Fin K → Fin d → ℝ) (i k) :
    0 ≤ sqdist X m i k :=
  Finset.sum_nonneg fun j _ => sq_nonneg _

lemma Aw_nonneg (X : Fin n → Fin d → ℝ) (q : Fin n → Fin K → ℝ)
    (m : Fin K → Fin d → ℝ) (k) (hq0 : ∀ i k, 0 ≤ q i k) : 0 ≤ Aw X q m k :=
  Finset.sum_nonneg fun i _ => mul_nonneg (hq0 i k) (sqdist_nonneg X m i k)

lemma Bw_nonneg (X : Fin n → Fin d → ℝ) (q : Fin n → Fin K → ℝ) (k)
    (hq0 : ∀ i k, 0 ≤ q i k) : 0 ≤ Bw X q k :=
  Finset.sum_nonneg fun i _ => mul_nonneg (hq0 i k) (rated_nonneg X i)

/-- A row with no observed entries has zero masked distance to any mean. -/
lemma rated_zero_sqdist (X : Fin n → Fin d → ℝ) (i) (hr : rated X i = 0)
    (m : Fin K → Fin d → ℝ) (k) : sqdist X m i k = 0 := by
  have hnn : ∀ j ∈ Finset.univ, nonNull X i j = 0 :=
    (Finset.sum_eq_zero_iff_of_nonneg fun j _ => nonNull_nonneg X i j).mp hr
  unfold sqdist
  refine Finset.sum_eq_zero fun j _ => ?_
  have h0 : X i j = 0 := by
    by_contra hne
    have h1 := hnn j (Finset.mem_univ j)
    rw [nonNull_of_ne hne] at h1
    exact one_ne_zero h1
  rw [hnn j (Finset.mem_univ j), h0]
  ring

/-- If component `k` has zero expected observed count then it also has zero
expected masked distance, whatever the means. -/
lemma Bw_zero_imp (X : Fin n → Fin d → ℝ) (q : Fin n → Fin K → ℝ)
    (hq0 : ∀ i k, 0 ≤ q i k) (k) (m : Fin K → Fin d → ℝ)
    (hB : Bw X q k = 0) : Aw X q m k = 0 := by
  unfold Bw at hB
  have hterms : ∀ i ∈ Finset.univ, q i k * rated X i = 0 :=
    (Finset.sum_eq_zero_iff_of_nonneg fun i _ =>
      mul_nonneg (hq0 i k) (rated_nonneg X i)).mp hB
  unfold Aw
  refine Finset.sum_eq_zero fun i _ => ?_
  rcases mul_eq_zero.mp (hterms i (Finset.mem_univ i)) with hq | hr
  · rw [hq, zero_mul]
  · rw [rated_zero_sqdist X i hr m k, mul_zero]

/-- Pointwise: `((X - m) * non_null)^2 = (X - non_null * m)^2`, relating the
variance accumulator of `mstep` to the distance form of `estep`. -/
lemma sq_masked2 (X : Fin n → Fin d → ℝ) (i j) (m : ℝ) :
    ((X i j - m) * nonNull X i j) ^ 2 = (X i j - nonNull X i j * m) ^ 2 := by
  unfold nonNull
  split
  · ring
  · next h => rw [not_not.mp h]; ring

/-- `Aw` as a per-dimension weighted sum of squared deviations. -/
lemma Aw_decomp (X : Fin n → Fin d → ℝ) (q : Fin n → Fin K → ℝ)
    (m : Fin K → Fin d → ℝ) (k) :
    Aw X q m k = ∑ j, ∑ i, (q i k * nonNull X i j) * (X i j - m k j) ^ 2 := by
  unfold Aw sqdist
  calc ∑ i, q i k * ∑ j, (X i j - nonNull X i j * m k j) ^ 2
      = ∑ i, ∑ j, q i k * (X i j - nonNull X i j * m k j) ^ 2 :=
        Finset.sum_congr rfl fun i _ => Finset.mul_sum _ _ _
    _ = ∑ i, ∑ j, (q i k * nonNull X i j) * (X i j - m k j) ^ 2 :=
        Finset.sum_congr rfl fun i _ => Finset.sum_congr rfl fun j _ => by
          rw [sq_masked X i j (m k j)]; ring
    _ = ∑ j, ∑ i, (q i k * nonNull X i j) * (X i j - m k j) ^ 2 := Finset.sum_comm

/-- The mean update (weighted average where the observed mass is at least 1,
previous mean elsewhere) does not increase the expected masked distance. -/
lemma Aw_muHat_le (X : Fin n → Fin d → ℝ) (q : Fin n → Fin K → ℝ)
    (mix : GaussianMixture K d) (hq0 : ∀ i k, 0 ≤ q i k) (k) :
    Aw X q (muHat X q mix) k ≤ Aw X q mix.mu k := by
  rw [Aw_decomp, Aw_decomp]
  refine Finset.sum_le_sum fun j _ => ?_
  by_cases hden : 1 ≤ muDen X q k j
  · have hw : ∀ i, 0 ≤ q i k * nonNull X i j := fun i =>
      mul_nonneg (hq0 i k) (nonNull_nonneg X i j)
    have hdeq : muDen X q k j = ∑ i, q i k * nonNull X i j :=
      Finset.sum_congr rfl fun i _ => mul_comm _ _
    have hneq : muNum X q k j = ∑ i, (q i k * nonNull X i j) * X i j := by
      refine Finset.sum_congr rfl fun i _ => ?_
      rw [mul_assoc, mul_comm (nonNull X i j) (X i j), mul_nonNull]
      ring
    have hden' : (∑ i, q i k * nonNull X i j) ≠ 0 := by
      rw [← hdeq]
      intro h0
      rw [h0] at hden
      linarith
    have hmuH : muHat X q mix k j =
        (∑ i, (q i k * nonNull X i j) * X i j) / ∑ i, q i k * nonNull X i j := by
      unfold muHat
      rw [if_pos hden, hneq, hdeq]
    rw [hmuH]
    exact wls_le (fun i => q i k * nonNull X i j) (fun i => X i j) hw hden' (mix.mu k j)
  · have heq : muHat X q mix k j = mix.mu k j := by
      unfold muHat
      rw [if_neg hden]
    rw [heq]

/-- `pv` of `mstep` is `Aw(muHat) / Bw`. -/
lemma pvRaw_eq (X : Fin n → Fin d → ℝ) (q : Fin n → Fin K → ℝ)
    (mix : GaussianMixture K d) (k) :
    pvRaw X q mix k = Aw X q (muHat X q mix) k / Bw X q k := by
  unfold pvRaw
  congr 1
  · unfold Aw sqdist
    refine Finset.sum_congr rfl fun i _ => ?_
    congr 1
    exact Finset.sum_congr rfl fun j _ => sq_masked2 X i j (muHat X q mix k j)
  · unfold Bw rated
    rw [Finset.sum_comm]
    exact Finset.sum_congr rfl fun i _ => (Finset.mul_sum _ _ _).symm

/-- The variance floor invariant of `mstep`. -/
lemma mstep_var_ge (X : Fin n → Fin d → ℝ) (pst : Fin n → Fin K → ℝ)
    (mix : GaussianMixture K d) (mv : ℝ) (k) : mv ≤ (mstep X pst mix mv).var k := by
  show mv ≤ varHat X pst mix mv k
  unfold varHat
  split
  · assumption
  · exact le_refl mv

lemma pHat_nonneg (pst : Fin n → Fin K → ℝ) (hpst : ∀ i k, 0 ≤ pst i k) (k) :
    0 ≤ pHat pst k :=
  div_nonneg (Finset.sum_nonneg fun i _ => hpst i k) (Nat.cast_nonneg n)

lemma pHat_sum_one (hn : 0 < n) (pst : Fin n → Fin K → ℝ)
    (hrow : ∀ i, ∑ k, pst i k = 1) : ∑ k, pHat pst k = 1 := by
  unfold pHat
  rw [← Finset.sum_div, Finset.sum_comm]
  rw [Finset.sum_congr rfl fun i _ => hrow i]
  simp only [Finset.sum_const, Finset.card_univ, Fintype.card_fin, nsmul_eq_mul, mul_one]
  exact div_self (Nat.cast_ne_zero.mpr hn.ne')

/-! ### The EM improvement step -/

/-- One E-step/M-step round does not decrease the E-step cost by more than
the `ε`-deficit `n·K·ε·log((1+ε)/ε)` coming from `log(p + 1e-16)`, provided
the incoming mixture already satisfies the M-step invariants (variances at
or above the floor, mixing weights a probability vector). -/
lemma mstep_improves (X : Fin n → Fin d → ℝ) (mix : GaussianMixture K d) (mv : ℝ)
    (hn : 0 < n) (hK : 0 < K) (hmv : 0 < mv) (hvar : ∀ k, mv ≤ mix.var k)
    (hp0 : ∀ k, 0 ≤ mix.p k) (hp1 : ∑ k, mix.p k = 1) :
    logLikelihood X mix - n * K * eps * Real.log ((1 + eps) / eps) ≤
      logLikelihood X (mstep X (post X mix) mix mv) := by
  set q := post X mix with hq
  set mix' := mstep X q mix mv with hmix'
  have hq0 : ∀ i k, 0 ≤ q i k := fun i k => post_nonneg X mix i k
  have hqle : ∀ i k, q i k ≤ 1 := fun i k => post_le_one X mix i k
  have hqrow : ∀ i, ∑ k, q i k = 1 := fun i => post_row_sum X mix hK i
  have hA : ∑ i, ∑ k, q i k * (f X mix' i k - Real.log (q i k)) ≤
      logLikelihood X mix' := by
    rw [loglik_eq_sum_lse X mix' hK]
    exact Finset.sum_le_sum fun i _ =>
      elbo_le_lse hK (fun k => q i k) (fun k => f X mix' i k)
        (fun k => hq0 i k) (hqrow i)
  have hB : ∑ i, ∑ k, q i k * (f X mix i k - Real.log (q i k)) =
      logLikelihood X mix := by
    unfold logLikelihood
    refine Finset.sum_congr rfl fun i _ => Finset.sum_congr rfl fun k _ => ?_
    have hlq : Real.log (q i k) = logPost X mix i k := Real.log_exp _
    rw [hlq]
  have hfd : ∀ (i : Fin n) (k : Fin K),
      q i k * (f X mix' i k - f X mix i k) =
      (-(q i k * sqdist X mix'.mu i k) / (2 * mix'.var k)
        + (q i k * sqdist X mix.mu i k) / (2 * mix.var k)
        - (q i k * rated X i) / 2 * (Real.log (mix'.var k) - Real.log (mix.var k)))
      + q i k * (Real.log (mix'.p k + eps) - Real.log (mix.p k + eps)) := by
    intro i k
    unfold f
    ring
  have hsum_k : ∀ k : Fin K, ∑ i, q i k * (f X mix' i k - f X mix i k) =
      (-(Aw X q mix'.mu k) / (2 * mix'.var k)
        + (Aw X q mix.mu k) / (2 * mix.var k)
        - (Bw X q k) / 2 * (Real.log (mix'.var k) - Real.log (mix.var k)))
      + (Cw q k) * (Real.log (mix'.p k + eps) - Real.log (mix.p k + eps)) := by
    intro k
    have e1 : ∑ i, -(q i k * sqdist X mix'.mu i k) / (2 * mix'.var k) =
        -(Aw X q mix'.mu k) / (2 * mix'.var k) := by
      rw [← Finset.sum_div, Finset.sum_neg_distrib]
      rfl
    have e2 : ∑ i, (q i k * sqdist X mix.mu i k) / (2 * mix.var k) =
        (Aw X q mix.mu k) / (2 * mix.var k) := by
      rw [← Finset.sum_div]
      rfl
    have e3 : ∑ i, (q i k * rated X i) / 2 *
        (Real.log (mix'.var k) - Real.log (mix.var k)) =
        (Bw X q k) / 2 * (Real.log (mix'.var k) - Real.log (mix.var k)) := by
      rw [← Finset.sum_mul, ← Finset.sum_div]
      rfl
    have e4 : ∑ i, q i k * (Real.log (mix'.p k + eps) - Real.log (mix.p k + eps)) =
        (Cw q k) * (Real.log (mix'.p k + eps) - Real.log (mix.p k + eps)) := by
      rw [← Finset.sum_mul]
      rfl
    rw [Finset.sum_congr rfl fun i _ => hfd i k, Finset.sum_add_distrib,
      Finset.sum_sub_distrib, Finset.sum_add_distrib, e1, e2, e3, e4]
  have hmv_part : ∀ k : Fin K, 0 ≤
      -(Aw X q mix'.mu k) / (2 * mix'.var k)
        + (Aw X q mix.mu k) / (2 * mix.var k)
        - (Bw X q k) / 2 * (Real.log (mix'.var k) - Real.log (mix.var k)) := by
    intro k
    have hAnn : 0 ≤ Aw X q mix'.mu k := Aw_nonneg X q mix'.mu k hq0
    have hBnn : 0 ≤ Bw X q k := Bw_nonneg X q k hq0
    have hB0 : Bw X q k = 0 → Aw X q mix'.mu k = 0 := Bw_zero_imp X q hq0 k mix'.mu
    have hvv : mix'.var k =
        if mv ≤ Aw X q mix'.mu k / Bw X q k then Aw X q mix'.mu k / Bw X q k
        else mv := by
      show varHat X q mix mv k = _
      unfold varHat
      rw [pvRaw_eq]
      rfl
    have hvstep := varStep_le (Aw X q mix'.mu k) (Bw X q k) (mix.var k) mv
      hAnn hBnn hmv (hvar k) hB0
    rw [← hvv] at hvstep
    have hAle : Aw X q mix'.mu k ≤ Aw X q mix.mu k := Aw_muHat_le X q mix hq0 k
    have hvpos : 0 < mix.var k := lt_of_lt_of_le hmv (hvar k)
    have hdivle : Aw X q mix'.mu k / (2 * mix.var k) ≤
        Aw X q mix.mu k / (2 * mix.var k) :=
      (div_le_div_iff_of_pos_right (by positivity)).mpr hAle
    have hexp : Bw X q k / 2 * (Real.log (mix'.var k) - Real.log (mix.var k)) =
        Bw X q k / 2 * Real.log (mix'.var k) - Bw X q k / 2 * Real.log (mix.var k) := by
      ring
    have hneg1 : -Aw X q mix'.mu k / (2 * mix'.var k) =
        -(Aw X q mix'.mu k / (2 * mix'.var k)) := by ring
    have hneg2 : -Aw X q mix'.mu k / (2 * mix.var k) =
        -(Aw X q mix'.mu k / (2 * mix.var k)) := by ring
    linarith [hvstep, hdivle, hexp, hneg1, hneg2]
  have hΔQ : -(n * K * eps * Real.log ((1 + eps) / eps)) ≤
      ∑ i, ∑ k, q i k * (f X mix' i k - f X mix i k) := by
    rw [Finset.sum_comm, Finset.sum_congr rfl fun k _ => hsum_k k,
      Finset.sum_add_distrib]
    have hC0 : ∀ k, 0 ≤ Cw q k := fun k => Finset.sum_nonneg fun i _ => hq0 i k
    have hCn : ∀ k, Cw q k ≤ n := by
      intro k
      calc Cw q k ≤ ∑ _i : Fin n, (1 : ℝ) := Finset.sum_le_sum fun i _ => hqle i k
        _ = n := by
            rw [Finset.sum_const, Finset.card_univ, Fintype.card_fin, nsmul_eq_mul,
              mul_one]
    have hCs : ∑ k, Cw q k = n := by
      unfold Cw
      rw [Finset.sum_comm, Finset.sum_congr rfl fun i _ => hqrow i,
        Finset.sum_const, Finset.card_univ, Fintype.card_fin, nsmul_eq_mul, mul_one]
    have hp_part : -(↑n * ↑K * eps * Real.log ((1 + eps) / eps)) ≤
        ∑ k, (Cw q k) * (Real.log (mix'.p k + eps) - Real.log (mix.p k + eps)) := by
      have hd := deltaP_ge hn (Cw q) mix.p hC0 hCn hCs hp0 hp1
      have hpe : ∀ k ∈ Finset.univ,
          (Cw q k) * (Real.log (mix'.p k + eps) - Real.log (mix.p k + eps)) =
          (Cw q k) * (Real.log (Cw q k / ↑n + eps) - Real.log (mix.p k + eps)) :=
        fun k _ => rfl
      rw [Finset.sum_congr rfl hpe]
      exact hd
    have hmv_sum : 0 ≤ ∑ k,
        (-(Aw X q mix'.mu k) / (2 * mix'.var k)
          + (Aw X q mix.mu k) / (2 * mix.var k)
          - (Bw X q k) / 2 * (Real.log (mix'.var k) - Real.log (mix.var k))) :=
      Finset.sum_nonneg fun k _ => hmv_part k
    linarith [hp_part, hmv_sum]
  have hC : ∑ i, ∑ k, q i k * (f X mix' i k - Real.log (q i k)) -
      ∑ i, ∑ k, q i k * (f X mix i k - Real.log (q i k)) =
      ∑ i, ∑ k, q i k * (f X mix' i k - f X mix i k) := by
    rw [← Finset.sum_sub_distrib]
    refine Finset.sum_congr rfl fun i _ => ?_
    rw [← Finset.sum_sub_distrib]
    exact Finset.sum_congr rfl fun k _ => by ring
  linarith [hA, hB, hC, hΔQ]

end Helpers

/-! ## Claim theorems -/

section Claims

variable {n d K : ℕ}

/-- C3: the E-step's unnormalized log-responsibility `f(i,k)` equals the
spec formula `-dist(i,k)/(2 var[k]) - (r_i/2)(log(2π) + log(var[k])) +
log(p[k] + 1e-16)` in which the squared distance ranges only over the
dimensions `j` with `X[i,j] ≠ 0` and `r_i` is the number of such observed
dimensions; unobserved dimensions of row `i` contribute zero and cannot
affect `f(i,k)`. -/
theorem estep_f_masked_formula (X : Fin n → Fin d → ℝ) (mix : GaussianMixture K d)
    (i : Fin n) (k : Fin K) : f X mix i k = fSpec X mix i k := by
  have hdist : sqdist X mix.mu i k = distSpec X mix i k := by
    unfold sqdist distSpec
    rw [Finset.sum_filter]
    refine Finset.sum_congr rfl fun j _ => ?_
    by_cases h : X i j = 0
    · rw [nonNull_of_eq h, if_neg (not_not.mpr h), h]; ring
    · rw [nonNull_of_ne h, if_pos h, one_mul]
  have hrated : rated X i = (ratedSpec X i : ℝ) := by
    unfold rated ratedSpec nonNull
    rw [Finset.sum_boole]
  unfold f fSpec
  rw [hdist, hrated, mul_comm (mix.var k) 2]
  norm_num [eps]

/-- C4: for every rating matrix and every mixture state with positive
variances, each row of the responsibility matrix returned by `estep` sums
to exactly `1` (hence within any floating-point tolerance such as `1e-9`):
each row is a proper categorical distribution. -/
theorem estep_post_rows_sum_to_one (X : Fin n → Fin d → ℝ) (mix : GaussianMixture K d)
    (hK : 0 < K) (hvar : ∀ k, 0 < mix.var k) (i : Fin n) :
    ∑ k, (estep X mix).1 i k = 1 :=
  post_row_sum X mix hK i

/-- C4 witness: the row-sum theorem applied to the concrete one-cell matrix
`X1` and mixture `mixStar`. -/
theorem estep_post_rows_sum_to_one_witness :
    ∑ k, (estep X1 mixStar).1 0 k = 1 :=
  estep_post_rows_sum_to_one X1 mixStar (by norm_num)
    (fun k => by norm_num [mixStar]) 0

/-- C5: if the `n` rows of `post` each sum to 1 then the mixture returned
by `mstep` has mixing weights summing to 1 with `p[k] = (∑ i, post[i,k])/n`,
and every component variance is at least the `min_variance` floor. -/
theorem mstep_weights_and_variance_invariants (X : Fin n → Fin d → ℝ)
    (pst : Fin n → Fin K → ℝ) (mix : GaussianMixture K d) (minVar : ℝ)
    (hn : 0 < n) (hrow : ∀ i, ∑ k, pst i k = 1) :
    (∑ k, (mstep X pst mix minVar).p k = 1) ∧
      (∀ k, (mstep X pst mix minVar).p k = (∑ i, pst i k) / n) ∧
      (∀ k, minVar ≤ (mstep X pst mix minVar).var k) := by
  refine ⟨?_, fun k => rfl, fun k => ?_⟩
  · show ∑ k, pHat pst k = 1
    unfold pHat
    rw [← Finset.sum_div, Finset.sum_comm]
    have : ∀ i : Fin n, i ∈ Finset.univ → ∑ k, pst i k = 1 := fun i _ => hrow i
    rw [Finset.sum_congr rfl this]
    simp only [Finset.sum_const, Finset.card_univ, Fintype.card_fin, nsmul_eq_mul, mul_one]
    exact div_self (Nat.cast_ne_zero.mpr hn.ne')
  · show minVar ≤ varHat X pst mix minVar k
    unfold varHat
    split
    · assumption
    · exact le_refl minVar

/-- C5 witness: the M-step invariants at the concrete one-cell input. -/
theorem mstep_weights_and_variance_invariants_witness :
    (∑ k, (mstep X1 pst6 mixStar 0.25).p k = 1) ∧
      (∀ k, (mstep X1 pst6 mixStar 0.25).p k = (∑ i, pst6 i k) / (1 : ℕ)) ∧
      (∀ k, (0.25 : ℝ) ≤ (mstep X1 pst6 mixStar 0.25).var k) :=
  mstep_weights_and_variance_invariants X1 pst6 mixStar 0.25 (by norm_num)
    (fun i => by simp [pst6])

/-- C6: the M-step mean update: per component `k` and dimension `j`, when
the expected observed mass `∑ i, post[i,k] * observed[i,j]` is at least 1
the new mean is the responsibility-weighted average of the observed values,
and when it is below 1 the new mean falls back to the previous mixture's
mean for that component and dimension. -/
theorem mstep_mean_update_with_fallback (X : Fin n → Fin d → ℝ)
    (pst : Fin n → Fin K → ℝ) (mix : GaussianMixture K d) (minVar : ℝ)
    (k : Fin K) (j : Fin d) :
    (1 ≤ ∑ i, pst i k * nonNull X i j →
      (mstep X pst mix minVar).mu k j =
        (∑ i, pst i k * X i j * nonNull X i j) / ∑ i, pst i k * nonNull X i j) ∧
    ((∑ i, pst i k * nonNull X i j) < 1 →
      (mstep X pst mix minVar).mu k j = mix.mu k j) := by
  have hden : ∑ i, pst i k * nonNull X i j = muDen X pst k j :=
    Finset.sum_congr rfl fun i _ => mul_comm _ _
  have hnum : ∑ i, pst i k * X i j * nonNull X i j = muNum X pst k j := by
    refine Finset.sum_congr rfl fun i _ => ?_
    rw [mul_assoc, mul_nonNull, mul_comm]
  constructor
  · intro h
    rw [hden] at h
    show muHat X pst mix k j = _
    rw [muHat, if_pos h, hnum, hden]
  · intro h
    rw [hden] at h
    show muHat X pst mix k j = _
    rw [muHat, if_neg (not_le.mpr h)]

/-- C6 witness: on `X6 = [[2, 0]]` with unit responsibilities, dimension 0
has observed mass 1 and gets the weighted average, while dimension 1 has
observed mass 0 and keeps the previous mean. -/
theorem mstep_mean_update_with_fallback_witness :
    (mstep X6 pst6 mix6 0.25).mu 0 0 =
        (∑ i, pst6 i 0 * X6 i 0 * nonNull X6 i 0) / (∑ i, pst6 i 0 * nonNull X6 i 0) ∧
      (mstep X6 pst6 mix6 0.25).mu 0 1 = mix6.mu 0 1 :=
  ⟨(mstep_mean_update_with_fallback X6 pst6 mix6 0.25 0 0).1
      (by simp [pst6, nonNull, X6]),
    (mstep_mean_update_with_fallback X6 pst6 mix6 0.25 0 1).2
      (by simp [pst6, nonNull, X6])⟩

/-- C7: the scalar returned by `estep`, defined as
`∑ (i,k), post[i,k] * (f(i,k) - log_post[i,k])`, equals the sum over the
rows of the log-normalizer `logsumexp_k f(i,k)`. -/
theorem loglikelihood_eq_sum_logsumexp (X : Fin n → Fin d → ℝ)
    (mix : GaussianMixture K d) (hK : 0 < K) (hvar : ∀ k, 0 < mix.var k) :
    (estep X mix).2 = ∑ i, Real.log (∑ k, Real.exp (f X mix i k)) :=
  loglik_eq_sum_lse X mix hK

/-- C7 witness: the identity at the concrete one-cell input. -/
theorem loglikelihood_eq_sum_logsumexp_witness :
    (estep X1 mixStar).2 = ∑ i, Real.log (∑ k, Real.exp (f X1 mixStar i k)) :=
  loglikelihood_eq_sum_logsumexp X1 mixStar (by norm_num)
    (fun k => by norm_num [mixStar])

/-- C8: `fill_matrix` copies every observed cell (`X[i,j] ≠ 0`) unchanged
and replaces every missing cell (`X[i,j] = 0`) by
`∑ k, post[i,k] * mu[k,j]`, with `post` recomputed from `X` by the same
stable E-step formula; being a pure function of its inputs it returns a new
matrix and cannot mutate `X` (the output has the same shape `n × d` by
type). -/
theorem fill_matrix_preserves_observed_and_imputes_missing
    (X : Fin n → Fin d → ℝ) (mix : GaussianMixture K d) (i : Fin n) (j : Fin d) :
    (X i j ≠ 0 → fillMatrix X mix i j = X i j) ∧
      (X i j = 0 → fillMatrix X mix i j = ∑ k, post X mix i k * mix.mu k j) := by
  constructor
  · intro h; unfold fillMatrix; rw [if_neg h]
  · intro h; unfold fillMatrix; rw [if_pos h]

/-- C8 witness: on `X6 = [[2, 0]]` the observed cell is copied and the
missing cell receives the mixture-mean estimate. -/
theorem fill_matrix_preserves_observed_and_imputes_missing_witness :
    fillMatrix X6 mix6 0 0 = X6 0 0 ∧
      fillMatrix X6 mix6 0 1 = ∑ k, post X6 mix6 0 k * mix6.mu k 1 :=
  ⟨(fill_matrix_preserves_observed_and_imputes_missing X6 mix6 0 0).1
      (by simp [X6]),
    (fill_matrix_preserves_observed_and_imputes_missing X6 mix6 0 1).2
      (by simp [X6])⟩

/-- C10: for a fully missing row `i`, the recomputed responsibilities
reduce to the normalized ε-smoothed mixing weights
`(p[k] + 1e-16) / ∑ k', (p[k'] + 1e-16)` (independent of `mu` and `var`),
and `fill_matrix` imputes every cell of that row as
`∑ k, post[i,k] * mu[k,j]`. -/
theorem empty_row_posterior_and_imputation (X : Fin n → Fin d → ℝ)
    (mix : GaussianMixture K d) (hK : 0 < K) (i : Fin n)
    (hrow : ∀ j, X i j = 0) (hp : ∀ k, 0 ≤ mix.p k) :
    (∀ k, post X mix i k = (mix.p k + eps) / ∑ k2, (mix.p k2 + eps)) ∧
      (∀ j, fillMatrix X mix i j = ∑ k, post X mix i k * mix.mu k j) := by
  have hf : ∀ k, f X mix i k = Real.log (mix.p k + eps) := by
    intro k
    have hsq : sqdist X mix.mu i k = 0 := by
      unfold sqdist
      refine Finset.sum_eq_zero fun j _ => ?_
      rw [nonNull_of_eq (hrow j), hrow j]; ring
    have hr : rated X i = 0 := by
      unfold rated
      exact Finset.sum_eq_zero fun j _ => nonNull_of_eq (hrow j)
    unfold f
    rw [hsq, hr]
    ring
  have hpos : ∀ k, (0 : ℝ) < mix.p k + eps := fun k =>
    add_pos_of_nonneg_of_pos (hp k) eps_pos
  have hSpos : (0 : ℝ) < ∑ k2, (mix.p k2 + eps) := by
    have : Nonempty (Fin K) := ⟨⟨0, hK⟩⟩
    exact Finset.sum_pos (fun k _ => hpos k) Finset.univ_nonempty
  constructor
  · intro k
    unfold post logPost lse
    rw [Real.exp_sub]
    have hsum : ∑ k2, Real.exp (f X mix i k2) = ∑ k2, (mix.p k2 + eps) :=
      Finset.sum_congr rfl fun k2 _ => by rw [hf k2, Real.exp_log (hpos k2)]
    rw [hf k, Real.exp_log (hpos k), hsum, Real.exp_log hSpos]
  · intro j
    unfold fillMatrix
    rw [if_pos (hrow j)]

/-- C10 witness: the empty-row theorem at the concrete all-missing matrix
`X0w`, instantiated at component 0 and dimension 0. -/
theorem empty_row_posterior_and_imputation_witness :
    post X0w mixStar 0 0 = (mixStar.p 0 + eps) / ∑ k2, (mixStar.p k2 + eps) ∧
      fillMatrix X0w mixStar 0 0 = ∑ k, post X0w mixStar 0 k * mixStar.mu k 0 :=
  ⟨(empty_row_posterior_and_imputation X0w mixStar (by norm_num) 0
      (fun j => rfl) (fun k => by norm_num [mixStar])).1 0,
    (empty_row_posterior_and_imputation X0w mixStar (by norm_num) 0
      (fun j => rfl) (fun k => by norm_num [mixStar])).2 0⟩

/-- C2: when `run` returns, its result is characterised by the iteration
trace: the loop runs E-step then M-step every iteration; the convergence
comparison `cost - prev_cost ≤ 1e-6 * |cost|` is evaluated only after the
first iteration (`i > 0`); and the returned triple is, for the first
iteration `t ≥ 1` whose check passes, exactly that iteration's M-step
mixture (`mixAt (t+1)`, kept without being re-evaluated by another E-step)
together with that same iteration's E-step post and cost. -/
theorem run_returns_first_converged_iteration (X : Fin n → Fin d → ℝ)
    (mix0 : GaussianMixture K d) (pst0 : Fin n → Fin K → ℝ) (fuel : ℕ)
    (out : GaussianMixture K d × (Fin n → Fin K → ℝ) × ℝ)
    (h : run X mix0 pst0 fuel = some out) :
    ∃ t, 1 ≤ t ∧ (∀ s, 1 ≤ s → s < t → ¬ stopsAt X mix0 s) ∧ stopsAt X mix0 t ∧
      out = (mixAt X mix0 (t + 1), postAt X mix0 t, costAt X mix0 t) := by
  unfold run at h
  cases fuel with
  | zero => simp [runLoop] at h
  | succ fuel =>
    rw [runLoop, if_neg (by simp)] at h
    have h1 : runLoop X fuel (mixAt X mix0 1) 1 (costAt X mix0 (1 - 1)) = some out := h
    exact runLoop_some_spec X mix0 fuel 1 out (le_refl 1) h1

/-- C2 witness: `run` on the concrete fixed point `(X1, mixStar)` returns
within fuel 2, and the characterisation applies to it. -/
theorem run_returns_first_converged_iteration_witness :
    ∃ t, 1 ≤ t ∧ (∀ s, 1 ≤ s → s < t → ¬ stopsAt X1 mixStar s) ∧ stopsAt X1 mixStar t ∧
      (mixStar, post X1 mixStar, logLikelihood X1 mixStar) =
        (mixAt X1 mixStar (t + 1), postAt X1 mixStar t, costAt X1 mixStar t) :=
  run_returns_first_converged_iteration X1 mixStar (fun _ _ => 1) 2
    (mixStar, post X1 mixStar, logLikelihood X1 mixStar)
    (run_fixed X1 mixStar (fun _ _ => 1) (mstep_X1 mixStar))

/-- C1 counterexample: on `X = [[1]]` started at the mixture `mixA` (mean
on the data point, variance `0.01`, weight `1`), the cost of iteration 1 is
smaller than the cost of iteration 0 by `(1/2)·log 25 ≈ 0.8`, far beyond
the `-1e-8` tolerance: the M-step's variance floor pushes the variance from
`0.01` up to `0.25` and the log-likelihood strictly drops. This refutes
non-decrease of the E-step cost over consecutive `run` iterations for
arbitrary starting mixtures. -/
theorem cost_decrease_counterexample :
    costAt X1 mixA 1 - costAt X1 mixA 0 < -(1e-8) := by
  have hm1 : mixAt X1 mixA 1 = mixStar := mstep_X1 mixA
  have h0 : costAt X1 mixA 0 =
      -(1 / 2) * (Real.log (2 * Real.pi) + Real.log 0.01) + Real.log (1 + eps) := by
    show logLikelihood X1 mixA = _
    rw [loglik_X1 mixA rfl]
    norm_num [mixA]
  have h1 : costAt X1 mixA 1 =
      -(1 / 2) * (Real.log (2 * Real.pi) + Real.log 0.25) + Real.log (1 + eps) := by
    show logLikelihood X1 (mixAt X1 mixA 1) = _
    rw [hm1, loglik_X1 mixStar rfl]
    norm_num [mixStar]
  have hlog : Real.log 0.25 - Real.log 0.01 = Real.log 25 := by
    rw [← Real.log_div (by norm_num) (by norm_num)]
    norm_num
  have h25 : (1 : ℝ) < Real.log 25 := by
    rw [Real.lt_log_iff_exp_lt (by norm_num)]
    calc Real.exp 1 < 2.7182818286 := Real.exp_one_lt_d9
      _ < 25 := by norm_num
  rw [h0, h1]
  nlinarith [hlog, h25]

/-- C1 (amended): from the second iteration onward — equivalently whenever
the mixture entering the earlier iteration has already passed through one
M-step, so that its variances are at or above the `0.25` floor and its
mixing weights form a probability vector — the E-step cost of consecutive
`run` iterations is non-decreasing up to the explicit `ε`-smoothing deficit
`n·K·ε·log((1+ε)/ε)` (with `ε = 1e-16`, about `3.7e-15·n·K`, below the
claimed `1e-8` tolerance for all realistic sizes); for the very first pair
of iterations, with an arbitrary start mixture, the cost can genuinely
decrease (see the counterexample). -/
theorem run_cost_quasi_monotone (X : Fin n → Fin d → ℝ)
    (mix0 : GaussianMixture K d) (hn : 0 < n) (hK : 0 < K) (t : ℕ) (ht : 1 ≤ t) :
    costAt X mix0 t - n * K * eps * Real.log ((1 + eps) / eps) ≤
      costAt X mix0 (t + 1) := by
  obtain ⟨s, rfl⟩ : ∃ s, t = s + 1 := ⟨t - 1, (Nat.succ_pred_eq_of_pos ht).symm⟩
  have hvar : ∀ k, (0.25 : ℝ) ≤ (mixAt X mix0 (s + 1)).var k := fun k =>
    mstep_var_ge X (post X (mixAt X mix0 s)) (mixAt X mix0 s) 0.25 k
  have hp0 : ∀ k, 0 ≤ (mixAt X mix0 (s + 1)).p k := fun k =>
    pHat_nonneg (post X (mixAt X mix0 s)) (fun i k2 => post_nonneg X (mixAt X mix0 s) i k2) k
  have hp1 : ∑ k, (mixAt X mix0 (s + 1)).p k = 1 :=
    pHat_sum_one hn (post X (mixAt X mix0 s)) (fun i => post_row_sum X (mixAt X mix0 s) hK i)
  exact mstep_improves X (mixAt X mix0 (s + 1)) 0.25 hn hK (by norm_num) hvar hp0 hp1

/-- C1 witness: the quasi-monotonicity theorem applied to the pair of
iterations 1 and 2 on the concrete input `(X1, mixA)`. -/
theorem run_cost_quasi_monotone_witness :
    costAt X1 mixA 1 - ((1 : ℕ) : ℝ) * ((1 : ℕ) : ℝ) * eps * Real.log ((1 + eps) / eps) ≤
      costAt X1 mixA 2 :=
  run_cost_quasi_monotone X1 mixA (by norm_num) (by norm_num) 1 (le_refl 1)

/-- C9 counterexample: `(X1, mixStar)` is a local optimum in the claim's
sense (the M-step reproduces the state exactly, so the log-likelihood
cannot improve), yet `run` has not stopped after one loop iteration (fuel
1 yields no result): the convergence check is guarded by `i > 0`, so the
loop always executes its body at least twice. -/
theorem converged_start_not_one_iteration :
    mstep X1 (post X1 mixStar) mixStar 0.25 = mixStar ∧
      run X1 mixStar (fun _ _ => 1) 1 = none := by
  refine ⟨mstep_X1 mixStar, ?_⟩
  unfold run
  rw [runLoop, if_neg (by simp)]
  rfl

/-- C9 (amended): started on a mixture the M-step maps to itself (a local
optimum: means at the responsibility-weighted centroids, variances at their
re-estimated values, so the cost cannot improve), `run` reaches the
converged state and stops at the first iteration in which the convergence
check is evaluated — iteration index 1, i.e. the second loop-body
execution — returning the unchanged mixture with its E-step post and cost. -/
theorem converged_start_stops_at_first_check (X : Fin n → Fin d → ℝ)
    (mix : GaussianMixture K d) (pst0 : Fin n → Fin K → ℝ)
    (hfix : mstep X (post X mix) mix 0.25 = mix) :
    run X mix pst0 2 = some (mix, post X mix, logLikelihood X mix) ∧
      run X mix pst0 1 = none := by
  refine ⟨run_fixed X mix pst0 hfix, ?_⟩
  unfold run
  rw [runLoop, if_neg (by simp)]
  rfl

/-- C9 witness: the amended convergence behaviour at the concrete fixed
point `(X1, mixStar)`. -/
theorem converged_start_stops_at_first_check_witness :
    run X1 mixStar (fun _ _ => 1) 2 =
        some (mixStar, post X1 mixStar, logLikelihood X1 mixStar) ∧
      run X1 mixStar (fun _ _ => 1) 1 = none :=
  converged_start_stops_at_first_check X1 mixStar (fun _ _ => 1) (mstep_X1 mixStar)

end Claims

end GMM
